import Mathlib

/-!
Shallow embedding of the relational normalization package
(`components.py`, `algorithms.py`) and proofs about it.

Python strings are modelled as `List Char`, Python sets of attributes as
`Finset Attribute`.  Python sets of dependency *objects* are modelled as
lists together with the object identity (field `oid`): the `Dependency`
classes define no `__eq__`/`__hash__`, so Python set membership for them is
decided by object identity.  Exceptions are modelled by `Except`.
-/

namespace Normalization

/-- Modelled from the spec: the two exception classes `InvalidExpression`
and `InvalidDependency` live in the package's `exceptions` module, which is
not part of the sources; the spec describes exactly these two error kinds. -/
inductive PyError where
  | invalidExpression : PyError
  | invalidDependency : PyError
deriving DecidableEq

instance {e a : Type} [DecidableEq e] [DecidableEq a] : DecidableEq (Except e a) := fun x y =>
  match x, y with
  | .ok v, .ok w => if h : v = w then isTrue (by rw [h]) else isFalse (by simp [h])
  | .error v, .error w => if h : v = w then isTrue (by rw [h]) else isFalse (by simp [h])
  | .ok _, .error _ => isFalse (by simp)
  | .error _, .ok _ => isFalse (by simp)

/-- `components.Attribute`: frozen dataclass with a single field `name`;
value semantics (equality and hashing by name). -/
structure Attribute where
  name : List Char
deriving DecidableEq

/-- `components.FunctionalDependency`: determinant and dependant are Python
sets of `Attribute`.  The extra field `oid` records the Python object
identity (`id(self)`): the class defines no `__eq__`/`__hash__`, so two
separately constructed objects are distinct set elements even when their
attribute sets coincide. -/
structure FunctionalDependency where
  oid : Nat
  determinant : Finset Attribute
  dependant : Finset Attribute
deriving DecidableEq

/-- `components.MultivaluedDependency`, embedded like
`FunctionalDependency`. -/
structure MultivaluedDependency where
  oid : Nat
  determinant : Finset Attribute
  dependant : Finset Attribute
deriving DecidableEq

/-- `FunctionalDependency.is_trivial`:
`self.dependant.issubset(self.determinant)`. -/
def FunctionalDependency.is_trivial (fd : FunctionalDependency) : Bool :=
  fd.dependant ⊆ fd.determinant

/-- `MultivaluedDependency.is_trivial(heading)`:
`self.dependant.issubset(self.determinant) or
 self.determinant.union(self.dependant) == heading`. -/
def MultivaluedDependency.is_trivial (mvd : MultivaluedDependency)
    (heading : Finset Attribute) : Bool :=
  mvd.dependant ⊆ mvd.determinant || mvd.determinant ∪ mvd.dependant = heading

/-! ### Parsing (`Dependency.__init__`)

The regex used by the code is
`\{[A-z]+(?:,[A-z]+)*\}->\{[A-z]+(?:,[A-z]+)*\}` (functional) resp. with
`->->` as the separator (multivalued), matched with `re.fullmatch` after
`expression.replace(" ", "")`.  Note the character class `[A-z]`: it is the
codepoint interval 65..122, i.e. the letters *plus* the six characters
`[ \ ] ^ _` and backtick; it contains neither `-` (45) nor `>` (62) nor the
braces nor the comma, so `->` (resp. `->->`) occurs in a matching string
exactly once, between the two brace groups.  Hence `re.fullmatch` succeeds
iff `expression.split(separator)` yields exactly two pieces, both of shape
`\{[A-z]+(?:,[A-z]+)*\}`; the code then splits the validated string on the
separator, which is exactly that decomposition.  We embed this combined
validate-and-split behaviour. -/

/-- `expression.replace(" ", "")`: removes every space character (U+0020
only; `str.replace` touches no other whitespace). -/
def removeSpaces (l : List Char) : List Char :=
  l.filter (fun c => c != ' ')

/-- One character of the regex class `[A-z]`, the codepoint range 65..122. -/
def identChar (c : Char) : Bool :=
  'A' ≤ c && c ≤ 'z'

/-- One identifier of the regex: a nonempty run of `[A-z]` characters. -/
def identOk (l : List Char) : Bool :=
  !l.isEmpty && l.all identChar

/-- One brace group `\{[A-z]+(?:,[A-z]+)*\}`: an opening brace, a
comma-separated list of identifiers (each nonempty), a closing brace. -/
def groupOk : List Char → Bool
  | [] => false
  | c :: rest =>
      (c == '{') && !rest.isEmpty && (rest.getLast? == some '}')
        && (rest.dropLast.splitOn ',').all identOk

/-- Python `str.split("->")`: scan left to right; when the separator
occurs at the current position, emit the piece collected so far and skip
the separator, otherwise keep the current character. -/
def splitArrow : List Char → List (List Char)
  | [] => [[]]
  | [c] => [[c]]
  | c1 :: c2 :: rest =>
      if c1 = '-' ∧ c2 = '>' then
        [] :: splitArrow rest
      else
        match splitArrow (c2 :: rest) with
        | [] => [[c1]]
        | p :: ps => (c1 :: p) :: ps

/-- Python `str.split("->->")`, scanning as in `splitArrow`; a suffix
shorter than the separator can no longer contain it. -/
def splitDoubleArrow : List Char → List (List Char)
  | c1 :: c2 :: c3 :: c4 :: rest =>
      if c1 = '-' ∧ c2 = '>' ∧ c3 = '-' ∧ c4 = '>' then
        [] :: splitDoubleArrow rest
      else
        match splitDoubleArrow (c2 :: c3 :: c4 :: rest) with
        | [] => [[c1]]
        | p :: ps => (c1 :: p) :: ps
  | [c1, c2, c3] => [[c1, c2, c3]]
  | [c1, c2] => [[c1, c2]]
  | [c1] => [[c1]]
  | [] => [[]]

/-- `Dependency._get_set_from_expression`:
`expression.strip("{}")` followed by `split(",")`, each piece becoming an
`Attribute`; building a Python set collapses duplicate names. -/
def attrSetOfGroup (g : List Char) : Finset Attribute :=
  let braceChar : Char → Bool := fun c => c == '{' || c == '}'
  let stripped := ((g.dropWhile braceChar).reverse.dropWhile braceChar).reverse
  ((stripped.splitOn ',').map Attribute.mk).toFinset

/-- `FunctionalDependency.__init__` (through `Dependency.__init__`):
remove spaces, validate against the regex, split on `"->"` and build the
two attribute sets; on a non-matching string raise `InvalidExpression`.
`oid` is the identity of the freshly allocated object. -/
def FunctionalDependency.parse (oid : Nat) (expression : List Char) :
    Except PyError FunctionalDependency :=
  let cleaned := removeSpaces expression
  match splitArrow cleaned with
  | [d, e] =>
      if groupOk d && groupOk e then
        .ok ⟨oid, attrSetOfGroup d, attrSetOfGroup e⟩
      else
        .error .invalidExpression
  | _ => .error .invalidExpression

/-- `MultivaluedDependency.__init__`: as for functional dependencies but
with separator `"->->"`. -/
def MultivaluedDependency.parse (oid : Nat) (expression : List Char) :
    Except PyError MultivaluedDependency :=
  let cleaned := removeSpaces expression
  match splitDoubleArrow cleaned with
  | [d, e] =>
      if groupOk d && groupOk e then
        .ok ⟨oid, attrSetOfGroup d, attrSetOfGroup e⟩
      else
        .error .invalidExpression
  | _ => .error .invalidExpression

/-! ### Declarative grammar of the code's expression language,
used to state what the parser accepts. -/

/-- A nonempty identifier over the regex class `[A-z]` (codepoints
65..122). -/
def IdentP (i : List Char) : Prop :=
  i ≠ [] ∧ ∀ c ∈ i, 'A' ≤ c ∧ c ≤ 'z'

/-- A brace group: `{` then identifiers joined by commas then `}`. -/
def GroupP (g : List Char) : Prop :=
  ∃ ids : List (List Char), ids ≠ [] ∧ (∀ i ∈ ids, IdentP i) ∧
    g = '{' :: ([','].intercalate ids ++ ['}'])

/-- Strings accepted by functional-dependency construction: after removing
spaces, two brace groups joined by `->`. -/
def FDExprP (s : List Char) : Prop :=
  ∃ g1 g2, GroupP g1 ∧ GroupP g2 ∧
    removeSpaces s = g1 ++ ['-', '>'] ++ g2

/-- Strings accepted by multivalued-dependency construction: after removing
spaces, two brace groups joined by `->->`. -/
def MVDExprP (s : List Char) : Prop :=
  ∃ g1 g2, GroupP g1 ∧ GroupP g2 ∧
    removeSpaces s = g1 ++ ['-', '>', '-', '>'] ++ g2

/-! ### The grammar the spec describes (for comparison with the code).  -/

/-- Modelled from the spec: "each identifier matches `[A-Za-z]+`". -/
def specIdentChar (c : Char) : Bool :=
  ('A' ≤ c && c ≤ 'Z') || ('a' ≤ c && c ≤ 'z')

/-- Modelled from the spec: an identifier of the spec's grammar. -/
def specIdentOk (l : List Char) : Bool :=
  !l.isEmpty && l.all specIdentChar

/-- Modelled from the spec: a brace group of the spec's grammar. -/
def specGroupOk : List Char → Bool
  | [] => false
  | c :: rest =>
      (c == '{') && !rest.isEmpty && (rest.getLast? == some '}')
        && (rest.dropLast.splitOn ',').all specIdentOk

/-- Modelled from the spec: "whitespace is ignored anywhere", then the
string must match `{ids}->{ids}` with identifiers `[A-Za-z]+`. -/
def specFDExprValid (s : List Char) : Bool :=
  match splitArrow (s.filter (fun c => !c.isWhitespace)) with
  | [d, e] => specGroupOk d && specGroupOk e
  | _ => false

/-! ### Normalization engine (`algorithms.py`) -/

/-- One full pass of the inner `for fd in functional_dependencies` loop of
`closure`: for each dependency whose determinant is contained in the
current set, union in its dependant.  (The code unions only
`fd.dependant - closure_set`, which yields the same set; the difference is
used there only to detect change.) -/
def closureStep : List FunctionalDependency → Finset Attribute → Finset Attribute
  | [], s => s
  | fd :: rest, s =>
      closureStep rest (if fd.determinant ⊆ s then s ∪ fd.dependant else s)

/-- All attributes mentioned by a list of functional dependencies; bounds
how many passes the `while changed` loop of `closure` can make. -/
def fdAttrs : List FunctionalDependency → Finset Attribute
  | [] => ∅
  | fd :: rest => fd.determinant ∪ fd.dependant ∪ fdAttrs rest

/-- The `while changed` loop of `closure`: repeat full passes until a pass
changes nothing.  A pass changes nothing exactly when `closureStep` returns
its argument (each update in the pass only grows the set).  The fuel is an
upper bound on the number of passes actually needed; the fixpoint lemma
below shows it is never exhausted. -/
def closureAux : Nat → List FunctionalDependency → Finset Attribute → Finset Attribute
  | 0, _, s => s
  | fuel + 1, fds, s =>
      let s2 := closureStep fds s
      if s2 = s then s else closureAux fuel fds s2

/-- `algorithms.closure(attributes, functional_dependencies)`. -/
def closure (attributes : Finset Attribute)
    (functional_dependencies : List FunctionalDependency) : Finset Attribute :=
  closureAux ((fdAttrs functional_dependencies).card + 1)
    functional_dependencies attributes

/-- `algorithms.is_superkey`:
`closure(attributes, functional_dependencies).issuperset(heading)`. -/
def is_superkey (attributes heading : Finset Attribute)
    (functional_dependencies : List FunctionalDependency) : Bool :=
  heading ⊆ closure attributes functional_dependencies

/-- `algorithms.is_key`: superkey test, then the loop
`for attr in attributes: if is_superkey(attributes - {attr}, ...): return False`. -/
def is_key (attributes heading : Finset Attribute)
    (functional_dependencies : List FunctionalDependency) : Bool :=
  if !is_superkey attributes heading functional_dependencies then
    false
  else if decide (∃ attr ∈ attributes,
      is_superkey (attributes.erase attr) heading functional_dependencies) then
    false
  else
    true

/-! ### Relvar (`components.Relvar`) -/

/-- `components.Relvar`: a heading plus the two dependency sets.  The
dependency containers are Python sets of objects compared by identity; they
are embedded as lists whose elements carry their `oid`. -/
structure Relvar where
  heading : Finset Attribute
  functional_dependencies : List FunctionalDependency
  multivalued_dependencies : List MultivaluedDependency
deriving DecidableEq

/-- `set.add` on a Python set of objects that inherit the default
`__eq__`/`__hash__`: the element is appended unless an object with the same
identity is already present. -/
def pySetAdd {α : Type} (oidOf : α → Nat) (s : List α) (x : α) : List α :=
  if s.any (fun d => oidOf d == oidOf x) then s else s ++ [x]

/-- `Relvar._validate_dependency`: raise `InvalidDependency` when some
attribute of `determinant | dependant` is outside the heading.  (The
Python loop reports the first offending attribute in set-iteration order;
only the raising behaviour is modelled.) -/
def Relvar.validate_dependency (r : Relvar)
    (determinant dependant : Finset Attribute) : Except PyError Unit :=
  if determinant ∪ dependant ⊆ r.heading then .ok () else .error .invalidDependency

/-- `Relvar.add_functional_dependency`, as a state transformer: the result
pairs the raised-exception-or-unit with the state of the relvar after the
call.  The validation runs to completion before the set is touched, so on
an exception the state is the unchanged input relvar. -/
def Relvar.add_functional_dependency (r : Relvar)
    (functional_dependency : FunctionalDependency) : Except PyError Unit × Relvar :=
  match r.validate_dependency functional_dependency.determinant
      functional_dependency.dependant with
  | .error e => (.error e, r)
  | .ok _ =>
      (.ok (), { r with
        functional_dependencies :=
          pySetAdd FunctionalDependency.oid r.functional_dependencies
            functional_dependency })

/-- `Relvar.add_multivalued_dependency`, embedded like
`add_functional_dependency`. -/
def Relvar.add_multivalued_dependency (r : Relvar)
    (multivalued_dependency : MultivaluedDependency) : Except PyError Unit × Relvar :=
  match r.validate_dependency multivalued_dependency.determinant
      multivalued_dependency.dependant with
  | .error e => (.error e, r)
  | .ok _ =>
      (.ok (), { r with
        multivalued_dependencies :=
          pySetAdd MultivaluedDependency.oid r.multivalued_dependencies
            multivalued_dependency })

/-- The loop `for fd in functional_dependencies: self.add_functional_dependency(fd)`
of `Relvar.__init__`; the first exception aborts the construction. -/
def Relvar.addAllFDs : Relvar → List FunctionalDependency → Except PyError Relvar
  | r, [] => .ok r
  | r, fd :: rest =>
      match r.add_functional_dependency fd with
      | (.ok _, r2) => Relvar.addAllFDs r2 rest
      | (.error e, _) => .error e

/-- The corresponding loop for multivalued dependencies. -/
def Relvar.addAllMVDs : Relvar → List MultivaluedDependency → Except PyError Relvar
  | r, [] => .ok r
  | r, mvd :: rest =>
      match r.add_multivalued_dependency mvd with
      | (.ok _, r2) => Relvar.addAllMVDs r2 rest
      | (.error e, _) => .error e

/-- The heading built by `Relvar.__init__` from the list of names:
`set(Attribute(name) for name in heading)`. -/
def headingOf (names : List (List Char)) : Finset Attribute :=
  (names.map Attribute.mk).toFinset

/-- `Relvar.__init__(heading, functional_dependencies, multivalued_dependencies)`:
build the heading, start from empty dependency sets, then add the
pre-populated dependencies one at a time through the validating accessors
(an absent argument behaves like the empty list). -/
def Relvar.make (heading : List (List Char))
    (functional_dependencies : List FunctionalDependency)
    (multivalued_dependencies : List MultivaluedDependency) : Except PyError Relvar :=
  match Relvar.addAllFDs ⟨headingOf heading, [], []⟩ functional_dependencies with
  | .error e => .error e
  | .ok r1 => Relvar.addAllMVDs r1 multivalued_dependencies

/-- The relvar states reachable through the public lifecycle: a successful
construction, followed by any sequence of calls to the two add operations
(also the failing ones, which leave the state unchanged). -/
inductive ReachableRelvar : Relvar → Prop where
  | make : ∀ h fds mvds r, Relvar.make h fds mvds = .ok r → ReachableRelvar r
  | addFD : ∀ r fd, ReachableRelvar r →
      ReachableRelvar (r.add_functional_dependency fd).2
  | addMVD : ∀ r mvd, ReachableRelvar r →
      ReachableRelvar (r.add_multivalued_dependency mvd).2

/-- The heading invariant of a relvar: every attribute referenced by an
attached dependency belongs to the heading. -/
def RelvarInv (r : Relvar) : Prop :=
  (∀ fd ∈ r.functional_dependencies,
      fd.determinant ∪ fd.dependant ⊆ r.heading) ∧
  (∀ mvd ∈ r.multivalued_dependencies,
      mvd.determinant ∪ mvd.dependant ⊆ r.heading)

/-- `algorithms.is_relvar_in_bcnf`: every functional dependency is trivial
or has a superkey determinant (the code returns `False` at the first
violation, which is the same Boolean). -/
def is_relvar_in_bcnf (relvar : Relvar) : Bool :=
  relvar.functional_dependencies.all fun fd =>
    fd.is_trivial
      || is_superkey fd.determinant relvar.heading relvar.functional_dependencies

/-- `algorithms.is_relvar_in_4nf`: first the BCNF check, then every
multivalued dependency is trivial w.r.t. the heading or has a superkey
determinant. -/
def is_relvar_in_4nf (relvar : Relvar) : Bool :=
  if !is_relvar_in_bcnf relvar then
    false
  else
    relvar.multivalued_dependencies.all fun mvd =>
      mvd.is_trivial relvar.heading
        || is_superkey mvd.determinant relvar.heading relvar.functional_dependencies

/-! ### Concrete objects for the spec's concrete scenarios -/

/-- The attribute `A` of the concrete scenarios. -/
def attrA : Attribute := ⟨['A']⟩

/-- The attribute `B` of the concrete scenarios. -/
def attrB : Attribute := ⟨['B']⟩

/-- The attribute `C` of the concrete scenarios. -/
def attrC : Attribute := ⟨['C']⟩

/-- The functional dependency `{A}->{B}` of the concrete scenarios. -/
def fdAB : FunctionalDependency := ⟨0, {attrA}, {attrB}⟩

/-- The functional dependency `{B}->{C}` of the concrete scenarios. -/
def fdBC : FunctionalDependency := ⟨1, {attrB}, {attrC}⟩

/-- A functional-dependency object with the same attribute sets as `fdAB`
but a different object identity, as produced by parsing the same string a
second time. -/
def fdAB2 : FunctionalDependency := ⟨2, {attrA}, {attrB}⟩

/-- The multivalued dependency `{A}->->{B}`. -/
def mvdAB : MultivaluedDependency := ⟨0, {attrA}, {attrB}⟩

/-- A multivalued-dependency object equal in value to `mvdAB` but with a
different object identity. -/
def mvdAB2 : MultivaluedDependency := ⟨1, {attrA}, {attrB}⟩

/-- A relvar with heading `{A, B}` and no dependencies. -/
def relvarAB : Relvar := ⟨{attrA, attrB}, [], []⟩

/-- The relvar of concrete scenario 2: heading `{A, B, C}`, only the
functional dependency `{A}->{B}`. -/
def relvarABC : Relvar := ⟨{attrA, attrB, attrC}, [fdAB], []⟩

/-! ### Lemmas about `closure` -/

theorem closureStep_subset (fds : List FunctionalDependency) (s : Finset Attribute) :
    s ⊆ closureStep fds s := by
  induction fds generalizing s with
  | nil => exact Finset.Subset.refl s
  | cons fd rest ih =>
      simp only [closureStep]
      refine Finset.Subset.trans ?_ (ih _)
      by_cases h0 : fd.determinant ⊆ s
      · rw [if_pos h0]; exact Finset.subset_union_left
      · rw [if_neg h0]

theorem closureStep_subset_invariant (fds : List FunctionalDependency)
    (T : Finset Attribute)
    (hT : ∀ fd ∈ fds, fd.determinant ⊆ T → fd.dependant ⊆ T) :
    ∀ s : Finset Attribute, s ⊆ T → closureStep fds s ⊆ T := by
  induction fds with
  | nil => intro s hs; exact hs
  | cons fd rest ih =>
      intro s hs
      simp only [closureStep]
      refine ih (fun d hd => hT d (List.mem_cons_of_mem _ hd)) _ ?_
      by_cases h0 : fd.determinant ⊆ s
      · rw [if_pos h0]
        exact Finset.union_subset hs (hT fd (List.mem_cons_self _ _) (h0.trans hs))
      · rw [if_neg h0]; exact hs

theorem closureStep_fixed_closed (fds : List FunctionalDependency) :
    ∀ s : Finset Attribute, closureStep fds s = s →
      ∀ fd ∈ fds, fd.determinant ⊆ s → fd.dependant ⊆ s := by
  induction fds with
  | nil => intro s _ fd hfd; cases hfd
  | cons fd0 rest ih =>
      intro s hfix fd hfd hdet
      simp only [closureStep] at hfix
      have ht : (if fd0.determinant ⊆ s then s ∪ fd0.dependant else s) = s := by
        apply Finset.Subset.antisymm
        · have hsub := closureStep_subset rest
            (if fd0.determinant ⊆ s then s ∪ fd0.dependant else s)
          rw [hfix] at hsub
          exact hsub
        · by_cases h0 : fd0.determinant ⊆ s
          · rw [if_pos h0]; exact Finset.subset_union_left
          · rw [if_neg h0]
      rcases List.mem_cons.mp hfd with rfl | hmem
      · by_cases h0 : fd.determinant ⊆ s
        · rw [if_pos h0] at ht
          exact Finset.union_eq_left.mp ht
        · exact absurd hdet h0
      · exact ih s (by rwa [ht] at hfix) fd hmem hdet

theorem closureStep_subset_fdAttrs (fds : List FunctionalDependency) :
    ∀ s : Finset Attribute, closureStep fds s ⊆ s ∪ fdAttrs fds := by
  induction fds with
  | nil => intro s; simp [closureStep]
  | cons fd rest ih =>
      intro s x hx
      simp only [closureStep] at hx
      have hx2 := ih _ hx
      simp only [fdAttrs, Finset.mem_union] at hx2 ⊢
      by_cases h0 : fd.determinant ⊆ s
      · rw [if_pos h0] at hx2
        simp only [Finset.mem_union] at hx2
        tauto
      · rw [if_neg h0] at hx2
        tauto

theorem closureAux_subset (fds : List FunctionalDependency) :
    ∀ (fuel : Nat) (s : Finset Attribute), s ⊆ closureAux fuel fds s := by
  intro fuel
  induction fuel with
  | zero => intro s; exact Finset.Subset.refl s
  | succ n ih =>
      intro s
      simp only [closureAux]
      by_cases h : closureStep fds s = s
      · rw [if_pos h]
      · rw [if_neg h]
        exact (closureStep_subset fds s).trans (ih _)

theorem closureAux_subset_invariant (fds : List FunctionalDependency)
    (T : Finset Attribute)
    (hT : ∀ fd ∈ fds, fd.determinant ⊆ T → fd.dependant ⊆ T) :
    ∀ (fuel : Nat) (s : Finset Attribute), s ⊆ T → closureAux fuel fds s ⊆ T := by
  intro fuel
  induction fuel with
  | zero => intro s hs; exact hs
  | succ n ih =>
      intro s hs
      simp only [closureAux]
      by_cases h : closureStep fds s = s
      · rw [if_pos h]; exact hs
      · rw [if_neg h]
        exact ih _ (closureStep_subset_invariant fds T hT s hs)

theorem closureAux_fixed (fds : List FunctionalDependency) :
    ∀ (fuel : Nat) (s : Finset Attribute),
      (fdAttrs fds \ s).card < fuel →
      closureStep fds (closureAux fuel fds s) = closureAux fuel fds s := by
  intro fuel
  induction fuel with
  | zero => intro s h; exact absurd h (Nat.not_lt_zero _)
  | succ n ih =>
      intro s h
      simp only [closureAux]
      by_cases hfix : closureStep fds s = s
      · rw [if_pos hfix]; exact hfix
      · rw [if_neg hfix]
        apply ih
        have hsub : s ⊆ closureStep fds s := closureStep_subset fds s
        have hxex : ∃ x ∈ closureStep fds s, x ∉ s := by
          by_contra hno
          push_neg at hno
          exact hfix (Finset.Subset.antisymm (fun x hx => hno x hx) hsub)
        obtain ⟨x, hxstep, hxs⟩ := hxex
        have hxfd : x ∈ fdAttrs fds := by
          have hx2 := closureStep_subset_fdAttrs fds s hxstep
          rcases Finset.mem_union.mp hx2 with h1 | h2
          · exact absurd h1 hxs
          · exact h2
        have hmono : fdAttrs fds \ closureStep fds s ⊆ fdAttrs fds \ s :=
          Finset.sdiff_subset_sdiff (Finset.Subset.refl _) hsub
        have hstrict : fdAttrs fds \ closureStep fds s ⊂ fdAttrs fds \ s := by
          refine (Finset.ssubset_iff_of_subset hmono).mpr ?_
          exact ⟨x, Finset.mem_sdiff.mpr ⟨hxfd, hxs⟩,
            fun hc => (Finset.mem_sdiff.mp hc).2 hxstep⟩
        have hcard := Finset.card_lt_card hstrict
        omega

theorem closure_extensive (X : Finset Attribute) (fds : List FunctionalDependency) :
    X ⊆ closure X fds :=
  closureAux_subset fds _ X

theorem closure_fixed (X : Finset Attribute) (fds : List FunctionalDependency) :
    closureStep fds (closure X fds) = closure X fds := by
  apply closureAux_fixed
  have h1 : fdAttrs fds \ X ⊆ fdAttrs fds := Finset.sdiff_subset
  have h2 := Finset.card_le_card h1
  omega

theorem closure_closed (X : Finset Attribute) (fds : List FunctionalDependency) :
    ∀ fd ∈ fds, fd.determinant ⊆ closure X fds → fd.dependant ⊆ closure X fds :=
  closureStep_fixed_closed fds _ (closure_fixed X fds)

theorem closure_minimal (X T : Finset Attribute) (fds : List FunctionalDependency)
    (hX : X ⊆ T) (hT : ∀ fd ∈ fds, fd.determinant ⊆ T → fd.dependant ⊆ T) :
    closure X fds ⊆ T :=
  closureAux_subset_invariant fds T hT _ X hX

/-! ### Claims C1, C7, C8 -/

/-- C1: `closure(X, fds)` contains `X`, is closed under every dependency
whose determinant it covers, and is contained in every other such set —
i.e. it is the least fixpoint, the unique maximal set reachable from `X`
by repeatedly adding dependants of covered determinants.  Concretely, with
fds `{A}->{B}` and `{B}->{C}`, `closure({A})` is `{A, B, C}`. -/
theorem claim_C1_closure_least_fixpoint :
    (∀ (X : Finset Attribute) (fds : List FunctionalDependency),
        X ⊆ closure X fds ∧
        (∀ fd ∈ fds, fd.determinant ⊆ closure X fds → fd.dependant ⊆ closure X fds) ∧
        (∀ T : Finset Attribute, X ⊆ T →
          (∀ fd ∈ fds, fd.determinant ⊆ T → fd.dependant ⊆ T) →
          closure X fds ⊆ T)) ∧
    closure {attrA} [fdAB, fdBC] = {attrA, attrB, attrC} :=
  ⟨fun X fds => ⟨closure_extensive X fds, closure_closed X fds,
    fun T hX hT => closure_minimal X T fds hX hT⟩, by decide⟩

/-- Witness for C1, discharging its hypotheses at the concrete scenario. -/
theorem claim_C1_closure_least_fixpoint_witness :
    closure {attrA} [fdAB, fdBC] ⊆ {attrA, attrB, attrC} :=
  (claim_C1_closure_least_fixpoint.1 {attrA} [fdAB, fdBC]).2.2
    {attrA, attrB, attrC} (by decide) (by decide)

/-- C7: the closure is independent of the order in which the functional
dependencies are enumerated: permuted dependency lists give equal
closures. -/
theorem claim_C7_closure_order_independent :
    ∀ (X : Finset Attribute) (l1 l2 : List FunctionalDependency),
      l1.Perm l2 → closure X l1 = closure X l2 := by
  intro X l1 l2 hperm
  apply Finset.Subset.antisymm
  · exact closure_minimal X _ l1 (closure_extensive X l2)
      (fun fd hfd => closure_closed X l2 fd (hperm.mem_iff.mp hfd))
  · exact closure_minimal X _ l2 (closure_extensive X l1)
      (fun fd hfd => closure_closed X l1 fd (hperm.mem_iff.mpr hfd))

/-- Witness for C7 on the two orderings of the concrete dependency set. -/
theorem claim_C7_closure_order_independent_witness :
    closure {attrA} [fdAB, fdBC] = closure {attrA} [fdBC, fdAB] :=
  claim_C7_closure_order_independent {attrA} [fdAB, fdBC] [fdBC, fdAB]
    (List.Perm.swap fdBC fdAB [])

/-- C8: closure is monotone in the starting attribute set. -/
theorem claim_C8_closure_monotone :
    ∀ (X Y : Finset Attribute) (fds : List FunctionalDependency),
      X ⊆ Y → closure X fds ⊆ closure Y fds :=
  fun X Y fds hXY =>
    closure_minimal X _ fds (hXY.trans (closure_extensive Y fds))
      (closure_closed Y fds)

/-- Witness for C8 at a concrete pair of attribute sets. -/
theorem claim_C8_closure_monotone_witness :
    closure {attrA} [fdAB, fdBC] ⊆ closure {attrA, attrB} [fdAB, fdBC] :=
  claim_C8_closure_monotone {attrA} {attrA, attrB} [fdAB, fdBC] (by decide)

/-! ### Claims C4, C5, C6 -/

theorem is_superkey_iff (attributes heading : Finset Attribute)
    (fds : List FunctionalDependency) :
    is_superkey attributes heading fds = true ↔ heading ⊆ closure attributes fds := by
  simp [is_superkey]

/-- C4: `is_key(K, H, fds)` holds iff `K` is a superkey and removing any
single attribute destroys superkey-ness; in particular for the empty set
it reduces to the superkey test alone (the closure of the empty set must
cover the heading), with no incorrect early exit. -/
theorem claim_C4_is_key_characterization :
    (∀ (K H : Finset Attribute) (fds : List FunctionalDependency),
        is_key K H fds = true ↔
          (is_superkey K H fds = true ∧
           ∀ a ∈ K, is_superkey (K \ {a}) H fds = false)) ∧
    (∀ (H : Finset Attribute) (fds : List FunctionalDependency),
        is_key ∅ H fds = true ↔ H ⊆ closure ∅ fds) := by
  have hmain : ∀ (K H : Finset Attribute) (fds : List FunctionalDependency),
      is_key K H fds = true ↔
        (is_superkey K H fds = true ∧
         ∀ a ∈ K, is_superkey (K \ {a}) H fds = false) := by
    intro K H fds
    simp only [is_key, Finset.sdiff_singleton_eq_erase]
    by_cases hsk : is_superkey K H fds = true
    · simp only [hsk, Bool.not_true, Bool.false_eq_true, if_false, true_and]
      by_cases hex : ∃ attr ∈ K, is_superkey (K.erase attr) H fds = true
      · simp only [hex, decide_True, if_true]
        constructor
        · intro hfalse; cases hfalse
        · intro hall
          obtain ⟨a, ha, hsup⟩ := hex
          rw [hall a ha] at hsup
          cases hsup
      · simp only [hex, decide_False, Bool.false_eq_true, if_false, true_iff]
        intro a ha
        cases hb : is_superkey (K.erase a) H fds
        · rfl
        · exact absurd ⟨a, ha, hb⟩ hex
    · have hskf : is_superkey K H fds = false := by
        cases hb : is_superkey K H fds
        · rfl
        · exact absurd hb hsk
      simp [hskf]
  refine ⟨hmain, fun H fds => ?_⟩
  rw [hmain ∅ H fds]
  simp [is_superkey_iff]

/-- Witness for C4, from scenario 1: `{A}` is a key of `{A,B,C}` under
`{A}->{B}`, `{B}->{C}`. -/
theorem claim_C4_is_key_characterization_witness :
    is_superkey {attrA} {attrA, attrB, attrC} [fdAB, fdBC] = true ∧
    ∀ a ∈ ({attrA} : Finset Attribute),
      is_superkey ({attrA} \ {a}) {attrA, attrB, attrC} [fdAB, fdBC] = false :=
  (claim_C4_is_key_characterization.1 {attrA} {attrA, attrB, attrC}
    [fdAB, fdBC]).mp (by decide)

/-- C5: a relvar is in BCNF iff every non-trivial functional dependency
attached to it has a determinant that is a superkey of its heading under
its own functional dependencies; vacuously true with no functional
dependencies, and false for heading `{A,B,C}` with the single dependency
`{A}->{B}`. -/
theorem claim_C5_bcnf_characterization :
    (∀ r : Relvar, is_relvar_in_bcnf r = true ↔
        ∀ fd ∈ r.functional_dependencies, fd.is_trivial = false →
          is_superkey fd.determinant r.heading r.functional_dependencies = true) ∧
    (∀ r : Relvar, r.functional_dependencies = [] → is_relvar_in_bcnf r = true) ∧
    is_relvar_in_bcnf relvarABC = false := by
  refine ⟨?_, ?_, by decide⟩
  · intro r
    simp only [is_relvar_in_bcnf, List.all_eq_true, Bool.or_eq_true]
    constructor
    · intro h fd hfd htriv
      rcases h fd hfd with h1 | h2
      · rw [htriv] at h1; cases h1
      · exact h2
    · intro h fd hfd
      cases htriv : fd.is_trivial with
      | false => exact Or.inr (h fd hfd htriv)
      | true => exact Or.inl rfl
  · intro r h
    simp [is_relvar_in_bcnf, h]

/-- Witness for C5: scenario 3 (heading `{A,B}`, fd `{A}->{B}`, in BCNF)
and the vacuous case. -/
theorem claim_C5_bcnf_characterization_witness :
    (∀ fd ∈ (Relvar.mk {attrA, attrB} [fdAB] []).functional_dependencies,
        fd.is_trivial = false →
        is_superkey fd.determinant (Relvar.mk {attrA, attrB} [fdAB] []).heading
          (Relvar.mk {attrA, attrB} [fdAB] []).functional_dependencies = true) ∧
    is_relvar_in_bcnf ⟨{attrA}, [], []⟩ = true :=
  ⟨(claim_C5_bcnf_characterization.1 ⟨{attrA, attrB}, [fdAB], []⟩).mp (by decide),
   claim_C5_bcnf_characterization.2.1 ⟨{attrA}, [], []⟩ rfl⟩

/-- C6: a relvar is in 4NF iff it is in BCNF and every multivalued
dependency that is non-trivial with respect to the heading has a superkey
determinant (under the functional dependencies); any BCNF violation makes
the result false regardless of the multivalued dependencies. -/
theorem claim_C6_4nf_characterization :
    (∀ r : Relvar, is_relvar_in_4nf r = true ↔
        (is_relvar_in_bcnf r = true ∧
         ∀ mvd ∈ r.multivalued_dependencies, mvd.is_trivial r.heading = false →
           is_superkey mvd.determinant r.heading r.functional_dependencies = true)) ∧
    (∀ r : Relvar, is_relvar_in_bcnf r = false → is_relvar_in_4nf r = false) := by
  constructor
  · intro r
    simp only [is_relvar_in_4nf]
    by_cases hb : is_relvar_in_bcnf r = true
    · simp only [hb, Bool.not_true, Bool.false_eq_true, if_false, true_and,
        List.all_eq_true, Bool.or_eq_true]
      constructor
      · intro h mvd hm htriv
        rcases h mvd hm with h1 | h2
        · rw [htriv] at h1; cases h1
        · exact h2
      · intro h mvd hm
        cases htriv : mvd.is_trivial r.heading with
        | false => exact Or.inr (h mvd hm htriv)
        | true => exact Or.inl rfl
    · have hbf : is_relvar_in_bcnf r = false := by
        cases hx : is_relvar_in_bcnf r
        · rfl
        · exact absurd hx hb
      simp [hbf]
  · intro r hb
    simp [is_relvar_in_4nf, hb]

/-- Witness for C6: a relvar in 4NF (heading `{A,B}`, fd `{A}->{B}`, mvd
`{A}->->{B}`) and a BCNF violation propagating to the 4NF answer. -/
theorem claim_C6_4nf_characterization_witness :
    (is_relvar_in_bcnf ⟨{attrA, attrB}, [fdAB], [mvdAB]⟩ = true ∧
     ∀ mvd ∈ (Relvar.mk {attrA, attrB} [fdAB] [mvdAB]).multivalued_dependencies,
       mvd.is_trivial (Relvar.mk {attrA, attrB} [fdAB] [mvdAB]).heading = false →
       is_superkey mvd.determinant (Relvar.mk {attrA, attrB} [fdAB] [mvdAB]).heading
         (Relvar.mk {attrA, attrB} [fdAB] [mvdAB]).functional_dependencies = true) ∧
    is_relvar_in_4nf relvarABC = false :=
  ⟨(claim_C6_4nf_characterization.1 ⟨{attrA, attrB}, [fdAB], [mvdAB]⟩).mp (by decide),
   claim_C6_4nf_characterization.2 relvarABC (by decide)⟩

/-! ### Lemmas about Relvar mutation -/

theorem add_fd_of_subset (r : Relvar) (fd : FunctionalDependency)
    (h : fd.determinant ∪ fd.dependant ⊆ r.heading) :
    r.add_functional_dependency fd =
      (.ok (), Relvar.mk r.heading
        (pySetAdd FunctionalDependency.oid r.functional_dependencies fd)
        r.multivalued_dependencies) := by
  simp [Relvar.add_functional_dependency, Relvar.validate_dependency, h]

theorem add_fd_of_not_subset (r : Relvar) (fd : FunctionalDependency)
    (h : ¬ fd.determinant ∪ fd.dependant ⊆ r.heading) :
    r.add_functional_dependency fd = (.error .invalidDependency, r) := by
  simp [Relvar.add_functional_dependency, Relvar.validate_dependency, h]

theorem add_mvd_of_subset (r : Relvar) (mvd : MultivaluedDependency)
    (h : mvd.determinant ∪ mvd.dependant ⊆ r.heading) :
    r.add_multivalued_dependency mvd =
      (.ok (), Relvar.mk r.heading r.functional_dependencies
        (pySetAdd MultivaluedDependency.oid r.multivalued_dependencies mvd)) := by
  simp [Relvar.add_multivalued_dependency, Relvar.validate_dependency, h]

theorem add_mvd_of_not_subset (r : Relvar) (mvd : MultivaluedDependency)
    (h : ¬ mvd.determinant ∪ mvd.dependant ⊆ r.heading) :
    r.add_multivalued_dependency mvd = (.error .invalidDependency, r) := by
  simp [Relvar.add_multivalued_dependency, Relvar.validate_dependency, h]

theorem mem_pySetAdd {α : Type} (oidOf : α → Nat) (s : List α) (x y : α)
    (h : y ∈ pySetAdd oidOf s x) : y ∈ s ∨ y = x := by
  unfold pySetAdd at h
  by_cases hany : s.any (fun d => oidOf d == oidOf x) = true
  · rw [if_pos hany] at h; exact Or.inl h
  · rw [if_neg hany] at h
    rcases List.mem_append.mp h with h1 | h2
    · exact Or.inl h1
    · exact Or.inr (List.mem_singleton.mp h2)

theorem pySetAdd_mem_oid {α : Type} (oidOf : α → Nat) (s : List α) (x : α) :
    (pySetAdd oidOf s x).any (fun d => oidOf d == oidOf x) = true := by
  unfold pySetAdd
  by_cases hany : s.any (fun d => oidOf d == oidOf x) = true
  · rw [if_pos hany]; exact hany
  · rw [if_neg hany]
    simp [List.any_append]

theorem pySetAdd_idem {α : Type} (oidOf : α → Nat) (s : List α) (x : α) :
    pySetAdd oidOf (pySetAdd oidOf s x) x = pySetAdd oidOf s x := by
  rw [pySetAdd, if_pos (pySetAdd_mem_oid oidOf s x)]

theorem add_fd_inv (r : Relvar) (fd : FunctionalDependency) (h : RelvarInv r) :
    RelvarInv (r.add_functional_dependency fd).2 := by
  by_cases hs : fd.determinant ∪ fd.dependant ⊆ r.heading
  · rw [add_fd_of_subset r fd hs]
    refine ⟨?_, h.2⟩
    intro d hd
    rcases mem_pySetAdd _ _ _ _ hd with h1 | h2
    · exact h.1 d h1
    · rw [h2]; exact hs
  · rw [add_fd_of_not_subset r fd hs]
    exact h

theorem add_mvd_inv (r : Relvar) (mvd : MultivaluedDependency) (h : RelvarInv r) :
    RelvarInv (r.add_multivalued_dependency mvd).2 := by
  by_cases hs : mvd.determinant ∪ mvd.dependant ⊆ r.heading
  · rw [add_mvd_of_subset r mvd hs]
    refine ⟨h.1, ?_⟩
    intro d hd
    rcases mem_pySetAdd _ _ _ _ hd with h1 | h2
    · exact h.2 d h1
    · rw [h2]; exact hs
  · rw [add_mvd_of_not_subset r mvd hs]
    exact h

theorem add_fd_heading (r : Relvar) (fd : FunctionalDependency) :
    (r.add_functional_dependency fd).2.heading = r.heading := by
  by_cases hs : fd.determinant ∪ fd.dependant ⊆ r.heading
  · rw [add_fd_of_subset r fd hs]
  · rw [add_fd_of_not_subset r fd hs]

theorem add_mvd_heading (r : Relvar) (mvd : MultivaluedDependency) :
    (r.add_multivalued_dependency mvd).2.heading = r.heading := by
  by_cases hs : mvd.determinant ∪ mvd.dependant ⊆ r.heading
  · rw [add_mvd_of_subset r mvd hs]
  · rw [add_mvd_of_not_subset r mvd hs]

theorem add_fd_error_val (r : Relvar) (fd : FunctionalDependency)
    (e : PyError) (h : (r.add_functional_dependency fd).1 = .error e) :
    e = PyError.invalidDependency := by
  by_cases hs : fd.determinant ∪ fd.dependant ⊆ r.heading
  · rw [add_fd_of_subset r fd hs] at h; cases h
  · rw [add_fd_of_not_subset r fd hs] at h
    cases h; rfl

theorem addAllFDs_ok_inv : ∀ (l : List FunctionalDependency) (r r2 : Relvar),
    RelvarInv r → Relvar.addAllFDs r l = .ok r2 → RelvarInv r2 := by
  intro l
  induction l with
  | nil =>
      intro r r2 h heq
      simp only [Relvar.addAllFDs] at heq
      cases heq
      exact h
  | cons fd rest ih =>
      intro r r2 h heq
      simp only [Relvar.addAllFDs] at heq
      rcases hadd : r.add_functional_dependency fd with ⟨res, rmid⟩
      rw [hadd] at heq
      cases res with
      | ok u =>
          have hm : rmid = (r.add_functional_dependency fd).2 := by rw [hadd]
          exact ih rmid r2 (hm ▸ add_fd_inv r fd h) heq
      | error e => cases heq

theorem addAllMVDs_ok_inv : ∀ (l : List MultivaluedDependency) (r r2 : Relvar),
    RelvarInv r → Relvar.addAllMVDs r l = .ok r2 → RelvarInv r2 := by
  intro l
  induction l with
  | nil =>
      intro r r2 h heq
      simp only [Relvar.addAllMVDs] at heq
      cases heq
      exact h
  | cons mvd rest ih =>
      intro r r2 h heq
      simp only [Relvar.addAllMVDs] at heq
      rcases hadd : r.add_multivalued_dependency mvd with ⟨res, rmid⟩
      rw [hadd] at heq
      cases res with
      | ok u =>
          have hm : rmid = (r.add_multivalued_dependency mvd).2 := by rw [hadd]
          exact ih rmid r2 (hm ▸ add_mvd_inv r mvd h) heq
      | error e => cases heq

theorem addAllFDs_ok_heading : ∀ (l : List FunctionalDependency) (r r2 : Relvar),
    Relvar.addAllFDs r l = .ok r2 → r2.heading = r.heading := by
  intro l
  induction l with
  | nil =>
      intro r r2 heq
      simp only [Relvar.addAllFDs] at heq
      cases heq
      rfl
  | cons fd rest ih =>
      intro r r2 heq
      simp only [Relvar.addAllFDs] at heq
      rcases hadd : r.add_functional_dependency fd with ⟨res, rmid⟩
      rw [hadd] at heq
      cases res with
      | ok u =>
          have hm : rmid = (r.add_functional_dependency fd).2 := by rw [hadd]
          rw [ih rmid r2 heq, hm, add_fd_heading]
      | error e => cases heq

theorem addAllFDs_error_of_bad : ∀ (l : List FunctionalDependency) (r : Relvar),
    (∃ d ∈ l, ¬ d.determinant ∪ d.dependant ⊆ r.heading) →
    Relvar.addAllFDs r l = .error .invalidDependency := by
  intro l
  induction l with
  | nil =>
      intro r h
      obtain ⟨d, hd, _⟩ := h
      cases hd
  | cons fd rest ih =>
      intro r h
      simp only [Relvar.addAllFDs]
      by_cases hs : fd.determinant ∪ fd.dependant ⊆ r.heading
      · rw [add_fd_of_subset r fd hs]
        apply ih
        obtain ⟨d, hd, hbad⟩ := h
        rcases List.mem_cons.mp hd with h1 | hmem
        · rw [h1] at hbad; exact absurd hs hbad
        · exact ⟨d, hmem, hbad⟩
      · rw [add_fd_of_not_subset r fd hs]

theorem addAllMVDs_error_of_bad : ∀ (l : List MultivaluedDependency) (r : Relvar),
    (∃ m ∈ l, ¬ m.determinant ∪ m.dependant ⊆ r.heading) →
    Relvar.addAllMVDs r l = .error .invalidDependency := by
  intro l
  induction l with
  | nil =>
      intro r h
      obtain ⟨m, hm, _⟩ := h
      cases hm
  | cons mvd rest ih =>
      intro r h
      simp only [Relvar.addAllMVDs]
      by_cases hs : mvd.determinant ∪ mvd.dependant ⊆ r.heading
      · rw [add_mvd_of_subset r mvd hs]
        apply ih
        obtain ⟨m, hm, hbad⟩ := h
        rcases List.mem_cons.mp hm with h1 | hmem
        · rw [h1] at hbad; exact absurd hs hbad
        · exact ⟨m, hmem, hbad⟩
      · rw [add_mvd_of_not_subset r mvd hs]

theorem addAllFDs_error_eq : ∀ (l : List FunctionalDependency) (r : Relvar)
    (e : PyError), Relvar.addAllFDs r l = .error e → e = PyError.invalidDependency := by
  intro l
  induction l with
  | nil =>
      intro r e heq
      simp only [Relvar.addAllFDs] at heq
      cases heq
  | cons fd rest ih =>
      intro r e heq
      simp only [Relvar.addAllFDs] at heq
      rcases hadd : r.add_functional_dependency fd with ⟨res, rmid⟩
      rw [hadd] at heq
      cases res with
      | ok u => exact ih rmid e heq
      | error e2 =>
          cases heq
          exact add_fd_error_val r fd e (by rw [hadd])

theorem make_ok_inv (h : List (List Char)) (fds : List FunctionalDependency)
    (mvds : List MultivaluedDependency) (r : Relvar)
    (heq : Relvar.make h fds mvds = .ok r) : RelvarInv r := by
  unfold Relvar.make at heq
  cases h1 : Relvar.addAllFDs ⟨headingOf h, [], []⟩ fds with
  | error e => rw [h1] at heq; cases heq
  | ok r1 =>
      rw [h1] at heq
      have hinv0 : RelvarInv ⟨headingOf h, [], []⟩ := by
        constructor
        · intro d hd; cases hd
        · intro m hm; cases hm
      have hinv1 := addAllFDs_ok_inv fds _ r1 hinv0 h1
      exact addAllMVDs_ok_inv mvds r1 r hinv1 heq

theorem make_error_of_bad (h : List (List Char)) (fds : List FunctionalDependency)
    (mvds : List MultivaluedDependency)
    (hbad : (∃ d ∈ fds, ¬ d.determinant ∪ d.dependant ⊆ headingOf h) ∨
            (∃ m ∈ mvds, ¬ m.determinant ∪ m.dependant ⊆ headingOf h)) :
    Relvar.make h fds mvds = .error .invalidDependency := by
  rcases hbad with hf | hm
  · unfold Relvar.make
    rw [addAllFDs_error_of_bad fds _ hf]
  · unfold Relvar.make
    cases h1 : Relvar.addAllFDs ⟨headingOf h, [], []⟩ fds with
    | error e =>
        have he : e = PyError.invalidDependency := addAllFDs_error_eq fds _ e h1
        subst he
        rfl
    | ok r1 =>
        have hh : r1.heading = headingOf h := addAllFDs_ok_heading fds _ r1 h1
        apply addAllMVDs_error_of_bad
        rw [hh]
        exact hm

/-! ### Claims C2, C9, C10 -/

/-- C2 counterexample: `fdAB` and `fdAB2` (resp. `mvdAB` and `mvdAB2`) are
two dependency objects with equal determinant and dependant sets — e.g.
parsed from the same string — yet after adding both, the relvar holds two
elements, not one: dependencies are compared by object identity, not by
value. -/
theorem claim_C2_add_by_value_counterexample :
    FunctionalDependency.parse 0 ['{','A','}','-','>','{','B','}'] = .ok fdAB ∧
    FunctionalDependency.parse 2 ['{','A','}','-','>','{','B','}'] = .ok fdAB2 ∧
    fdAB.determinant = fdAB2.determinant ∧ fdAB.dependant = fdAB2.dependant ∧
    ((relvarAB.add_functional_dependency fdAB).2.add_functional_dependency
        fdAB2).2.functional_dependencies.length = 2 ∧
    mvdAB.determinant = mvdAB2.determinant ∧ mvdAB.dependant = mvdAB2.dependant ∧
    ((relvarAB.add_multivalued_dependency mvdAB).2.add_multivalued_dependency
        mvdAB2).2.multivalued_dependencies.length = 2 := by
  decide

/-- C2 (amended): adding the same dependency *object* twice is a no-op
(for both kinds of dependencies); a second, distinct object with equal
attribute sets is added as a further element, because the `Dependency`
classes are compared by object identity. -/
theorem claim_C2_add_same_object_idempotent :
    (∀ (r : Relvar) (fd : FunctionalDependency),
        ((r.add_functional_dependency fd).2.add_functional_dependency fd).2 =
          (r.add_functional_dependency fd).2) ∧
    (∀ (r : Relvar) (mvd : MultivaluedDependency),
        ((r.add_multivalued_dependency mvd).2.add_multivalued_dependency mvd).2 =
          (r.add_multivalued_dependency mvd).2) := by
  constructor
  · intro r fd
    by_cases hs : fd.determinant ∪ fd.dependant ⊆ r.heading
    · rw [add_fd_of_subset r fd hs]
      rw [add_fd_of_subset _ fd (by simpa using hs)]
      simp [pySetAdd_idem]
    · rw [add_fd_of_not_subset r fd hs]
      show (r.add_functional_dependency fd).2 = r
      rw [add_fd_of_not_subset r fd hs]
  · intro r mvd
    by_cases hs : mvd.determinant ∪ mvd.dependant ⊆ r.heading
    · rw [add_mvd_of_subset r mvd hs]
      rw [add_mvd_of_subset _ mvd (by simpa using hs)]
      simp [pySetAdd_idem]
    · rw [add_mvd_of_not_subset r mvd hs]
      show (r.add_multivalued_dependency mvd).2 = r
      rw [add_mvd_of_not_subset r mvd hs]

/-- C9: every relvar reachable through construction and the two add
operations satisfies the heading invariant; attaching a dependency that
references an attribute outside the heading is rejected with
`InvalidDependency` at attach time, also during construction from
pre-populated lists. -/
theorem claim_C9_relvar_heading_invariant :
    (∀ r : Relvar, ReachableRelvar r → RelvarInv r) ∧
    (∀ (r : Relvar) (fd : FunctionalDependency),
        ¬ fd.determinant ∪ fd.dependant ⊆ r.heading →
        (r.add_functional_dependency fd).1 = .error .invalidDependency) ∧
    (∀ (r : Relvar) (mvd : MultivaluedDependency),
        ¬ mvd.determinant ∪ mvd.dependant ⊆ r.heading →
        (r.add_multivalued_dependency mvd).1 = .error .invalidDependency) ∧
    (∀ (h : List (List Char)) (fds : List FunctionalDependency)
        (mvds : List MultivaluedDependency),
        ((∃ d ∈ fds, ¬ d.determinant ∪ d.dependant ⊆ headingOf h) ∨
         (∃ m ∈ mvds, ¬ m.determinant ∪ m.dependant ⊆ headingOf h)) →
        Relvar.make h fds mvds = .error .invalidDependency) := by
  refine ⟨?_, ?_, ?_, make_error_of_bad⟩
  · intro r h
    induction h with
    | make h fds mvds r heq => exact make_ok_inv h fds mvds r heq
    | addFD r fd hr ih => exact add_fd_inv r fd ih
    | addMVD r mvd hr ih => exact add_mvd_inv r mvd ih
  · intro r fd h
    rw [add_fd_of_not_subset r fd h]
  · intro r mvd h
    rw [add_mvd_of_not_subset r mvd h]

/-- Witness for C9: a concretely constructed relvar satisfies the
invariant, and concrete out-of-heading attachments are rejected. -/
theorem claim_C9_relvar_heading_invariant_witness :
    RelvarInv relvarAB ∧
    (relvarAB.add_functional_dependency fdBC).1 = .error .invalidDependency ∧
    Relvar.make [['A'], ['B']] [fdBC] [] = .error .invalidDependency :=
  ⟨claim_C9_relvar_heading_invariant.1 relvarAB
      (ReachableRelvar.make [['A'], ['B']] [] [] relvarAB (by decide)),
   claim_C9_relvar_heading_invariant.2.1 relvarAB fdBC (by decide),
   claim_C9_relvar_heading_invariant.2.2.2 [['A'], ['B']] [fdBC] []
      (Or.inl ⟨fdBC, by decide, by decide⟩)⟩

/-- C10: when a dependency references an attribute outside the heading,
each add operation raises `InvalidDependency` and returns the relvar
completely unchanged — validation runs to completion before any
mutation. -/
theorem claim_C10_add_failure_atomicity :
    (∀ (r : Relvar) (fd : FunctionalDependency) (a : Attribute),
        a ∈ fd.determinant ∪ fd.dependant → a ∉ r.heading →
        r.add_functional_dependency fd = (.error .invalidDependency, r)) ∧
    (∀ (r : Relvar) (mvd : MultivaluedDependency) (a : Attribute),
        a ∈ mvd.determinant ∪ mvd.dependant → a ∉ r.heading →
        r.add_multivalued_dependency mvd = (.error .invalidDependency, r)) := by
  constructor
  · intro r fd a ha hout
    exact add_fd_of_not_subset r fd (fun hsub => hout (hsub ha))
  · intro r mvd a ha hout
    exact add_mvd_of_not_subset r mvd (fun hsub => hout (hsub ha))

/-- Witness for C10 at concrete out-of-heading dependencies. -/
theorem claim_C10_add_failure_atomicity_witness :
    relvarAB.add_functional_dependency fdBC = (.error .invalidDependency, relvarAB) ∧
    relvarAB.add_multivalued_dependency ⟨5, {attrB}, {attrC}⟩ =
      (.error .invalidDependency, relvarAB) :=
  ⟨claim_C10_add_failure_atomicity.1 relvarAB fdBC attrC (by decide) (by decide),
   claim_C10_add_failure_atomicity.2 relvarAB ⟨5, {attrB}, {attrC}⟩ attrC
      (by decide) (by decide)⟩

/-! ### Lemmas about the splitters and the grammar, and claim C3 -/


theorem splitArrow_ne_nil (l : List Char) : splitArrow l ≠ [] := by
  rcases l with _ | ⟨c1, _ | ⟨c2, rest⟩⟩
  · simp [splitArrow]
  · simp [splitArrow]
  · simp only [splitArrow]
    by_cases hsep : c1 = '-' ∧ c2 = '>'
    · rw [if_pos hsep]; simp
    · rw [if_neg hsep]
      cases h : splitArrow (c2 :: rest) with
      | nil => simp
      | cons p ps => simp

theorem intercalate_nil_cons (sep : List Char) (p : List Char) (ps : List (List Char)) :
    List.intercalate sep ([] :: p :: ps) = sep ++ List.intercalate sep (p :: ps) := by
  simp [List.intercalate, List.intersperse_cons_cons]

theorem intercalate_cons_head (sep : List Char) (c : Char) (p : List Char)
    (ps : List (List Char)) :
    List.intercalate sep ((c :: p) :: ps) = c :: List.intercalate sep (p :: ps) := by
  cases ps with
  | nil => simp [List.intercalate]
  | cons q qs => simp [List.intercalate, List.intersperse_cons_cons]

theorem intercalate_pair (sep d e : List Char) :
    List.intercalate sep [d, e] = d ++ sep ++ e := by
  simp [List.intercalate, List.intersperse_cons_cons]

theorem intercalate_splitArrow (l : List Char) :
    List.intercalate ['-', '>'] (splitArrow l) = l := by
  induction l using splitArrow.induct with
  | case1 => simp [splitArrow, List.intercalate]
  | case2 c => simp [splitArrow, List.intercalate]
  | case3 c1 c2 rest hsep ih =>
      simp only [splitArrow, if_pos hsep]
      cases h : splitArrow rest with
      | nil => exact absurd h (splitArrow_ne_nil rest)
      | cons p ps =>
          rw [h] at ih
          rw [intercalate_nil_cons, ih, hsep.1, hsep.2]
          rfl
  | case4 c1 c2 rest hsep hnil ih =>
      exact absurd hnil (splitArrow_ne_nil _)
  | case5 c1 c2 rest hsep p ps hcons ih =>
      simp only [splitArrow, if_neg hsep, hcons]
      rw [hcons] at ih
      rw [intercalate_cons_head, ih]

theorem splitArrow_no_dash (l : List Char) (h : '-' ∉ l) : splitArrow l = [l] := by
  induction l with
  | nil => rfl
  | cons c rest ih =>
      have hc : c ≠ '-' := fun e => h (e ▸ List.mem_cons_self c rest)
      cases rest with
      | nil => rfl
      | cons c2 rest2 =>
          simp only [splitArrow]
          rw [if_neg (fun hand => hc hand.1)]
          rw [ih (fun hm => h (List.mem_cons_of_mem c hm))]

theorem splitArrow_append (xs ys : List Char) (h : '-' ∉ xs) :
    splitArrow (xs ++ '-' :: '>' :: ys) = xs :: splitArrow ys := by
  induction xs with
  | nil =>
      simp [splitArrow]
  | cons c xs2 ih =>
      have hc : c ≠ '-' := fun e => h (e ▸ List.mem_cons_self c xs2)
      have h2 : '-' ∉ xs2 := fun hm => h (List.mem_cons_of_mem c hm)
      cases hx : xs2 ++ '-' :: '>' :: ys with
      | nil => simp at hx
      | cons a L =>
          rw [List.cons_append, hx]
          simp only [splitArrow]
          rw [if_neg (fun hand => hc hand.1)]
          rw [← hx, ih h2]



theorem splitDoubleArrow_ne_nil (l : List Char) : splitDoubleArrow l ≠ [] := by
  rcases l with _ | ⟨c1, _ | ⟨c2, _ | ⟨c3, _ | ⟨c4, rest⟩⟩⟩⟩
  · simp [splitDoubleArrow]
  · simp [splitDoubleArrow]
  · simp [splitDoubleArrow]
  · simp [splitDoubleArrow]
  · simp only [splitDoubleArrow]
    by_cases hsep : c1 = '-' ∧ c2 = '>' ∧ c3 = '-' ∧ c4 = '>'
    · rw [if_pos hsep]; simp
    · rw [if_neg hsep]
      cases h : splitDoubleArrow (c2 :: c3 :: c4 :: rest) with
      | nil => simp
      | cons p ps => simp

theorem intercalate_splitDoubleArrow (l : List Char) :
    List.intercalate ['-', '>', '-', '>'] (splitDoubleArrow l) = l := by
  induction l using splitDoubleArrow.induct with
  | case1 c1 c2 c3 c4 rest hsep ih =>
      simp only [splitDoubleArrow, if_pos hsep]
      cases h : splitDoubleArrow rest with
      | nil => exact absurd h (splitDoubleArrow_ne_nil rest)
      | cons p ps =>
          rw [h] at ih
          rw [intercalate_nil_cons, ih, hsep.1, hsep.2.1, hsep.2.2.1, hsep.2.2.2]
          rfl
  | case2 c1 c2 c3 c4 rest hsep hnil ih =>
      exact absurd hnil (splitDoubleArrow_ne_nil _)
  | case3 c1 c2 c3 c4 rest hsep p ps hcons ih =>
      simp only [splitDoubleArrow, if_neg hsep, hcons]
      rw [hcons] at ih
      rw [intercalate_cons_head, ih]
  | case4 c1 c2 c3 => simp [splitDoubleArrow, List.intercalate]
  | case5 c1 c2 => simp [splitDoubleArrow, List.intercalate]
  | case6 c1 => simp [splitDoubleArrow, List.intercalate]
  | case7 => simp [splitDoubleArrow, List.intercalate]

theorem splitDoubleArrow_no_dash (l : List Char) (h : '-' ∉ l) :
    splitDoubleArrow l = [l] := by
  induction l with
  | nil => rfl
  | cons c rest ih =>
      have hc : c ≠ '-' := fun e => h (e ▸ List.mem_cons_self c rest)
      have h2 : '-' ∉ rest := fun hm => h (List.mem_cons_of_mem c hm)
      rcases rest with _ | ⟨c2, _ | ⟨c3, _ | ⟨c4, rest4⟩⟩⟩
      · rfl
      · rfl
      · rfl
      · simp only [splitDoubleArrow]
        rw [if_neg (fun hand => hc hand.1)]
        rw [ih h2]

theorem splitDoubleArrow_append (xs ys : List Char) (h : '-' ∉ xs) :
    splitDoubleArrow (xs ++ '-' :: '>' :: '-' :: '>' :: ys) =
      xs :: splitDoubleArrow ys := by
  induction xs with
  | nil =>
      simp [splitDoubleArrow]
  | cons c xs2 ih =>
      have hc : c ≠ '-' := fun e => h (e ▸ List.mem_cons_self c xs2)
      have h2 : '-' ∉ xs2 := fun hm => h (List.mem_cons_of_mem c hm)
      rcases hx : xs2 ++ '-' :: '>' :: '-' :: '>' :: ys with _ | ⟨a, _ | ⟨b, _ | ⟨d, _ | ⟨e, L⟩⟩⟩⟩
      · simp at hx
      · rcases xs2 with _ | ⟨x, xs3⟩ <;> simp at hx
      · rcases xs2 with _ | ⟨x, _ | ⟨y, xs3⟩⟩ <;> simp at hx
      · rcases xs2 with _ | ⟨x, _ | ⟨y, _ | ⟨z, xs3⟩⟩⟩ <;> simp at hx
      · rw [List.cons_append, hx, splitDoubleArrow.eq_1]
        rw [if_neg (fun hand => hc hand.1)]
        rw [← hx, ih h2]



theorem groupOk_iff (g : List Char) : groupOk g = true ↔ GroupP g := by
  constructor
  · intro h
    cases g with
    | nil => simp [groupOk] at h
    | cons c rest =>
        simp only [groupOk, Bool.and_eq_true, beq_iff_eq, Bool.not_eq_true',
          List.all_eq_true] at h
        obtain ⟨⟨⟨hc, hne⟩, hlast⟩, hall⟩ := h
        have hrest : rest.dropLast ++ ['}'] = rest :=
          List.dropLast_append_getLast? '}' (Option.mem_def.mpr hlast)
        refine ⟨rest.dropLast.splitOn ',', ?_, ?_, ?_⟩
        · exact List.splitOnP_ne_nil _ _
        · intro i hi
          have hid := hall i hi
          simp only [identOk, Bool.and_eq_true, Bool.not_eq_true',
            List.all_eq_true, identChar, decide_eq_true_eq] at hid
          obtain ⟨hine, hichars⟩ := hid
          refine ⟨?_, ?_⟩
          · cases i with
            | nil => simp at hine
            | cons a as => simp
          · intro ch hch
            simpa using hichars ch hch
        · rw [hc, List.intercalate_splitOn, hrest]
  · rintro ⟨ids, hne, hid, rfl⟩
    have hnocomma : ∀ l ∈ ids, ',' ∉ l := by
      intro l hl hmem
      have hb := (hid l hl).2 ',' hmem
      exact absurd hb.1 (by decide)
    simp only [groupOk, Bool.and_eq_true, beq_iff_eq, Bool.not_eq_true',
      List.all_eq_true]
    refine ⟨⟨⟨trivial, by simp⟩, List.getLast?_concat _⟩, ?_⟩
    intro i hi
    rw [List.dropLast_concat, List.splitOn_intercalate ids ',' hnocomma hne] at hi
    have hIP := hid i hi
    simp only [identOk, Bool.and_eq_true, Bool.not_eq_true', List.all_eq_true,
      identChar, decide_eq_true_eq]
    refine ⟨?_, fun ch hch => ?_⟩
    · cases i with
      | nil => exact absurd rfl hIP.1
      | cons a as => rfl
    · simpa using hIP.2 ch hch

theorem mem_intercalate_comma (ids : List (List Char)) (c : Char)
    (h : c ∈ List.intercalate [','] ids) : c = ',' ∨ ∃ i ∈ ids, c ∈ i := by
  induction ids with
  | nil => simp [List.intercalate] at h
  | cons p ps ih =>
      cases ps with
      | nil =>
          simp only [List.intercalate, List.intersperse_singleton,
            List.flatten_cons, List.flatten_nil, List.append_nil] at h
          exact Or.inr ⟨p, by simp, h⟩
      | cons q qs =>
          rw [show List.intercalate [','] (p :: q :: qs) =
              p ++ [','] ++ List.intercalate [','] (q :: qs) from by
            simp [List.intercalate, List.intersperse_cons_cons]] at h
          rcases List.mem_append.mp h with h1 | h2
          · rcases List.mem_append.mp h1 with h3 | h4
            · exact Or.inr ⟨p, by simp, h3⟩
            · exact Or.inl (List.mem_singleton.mp h4)
          · rcases ih h2 with h5 | ⟨i, hi, hci⟩
            · exact Or.inl h5
            · exact Or.inr ⟨i, by simp [hi], hci⟩

theorem GroupP_no_dash (g : List Char) (h : GroupP g) : '-' ∉ g := by
  obtain ⟨ids, hne, hid, rfl⟩ := h
  intro hmem
  rcases List.mem_cons.mp hmem with h1 | h2
  · exact absurd h1 (by decide)
  · rcases List.mem_append.mp h2 with h3 | h4
    · rcases mem_intercalate_comma ids '-' h3 with h5 | ⟨i, hi, hci⟩
      · exact absurd h5 (by decide)
      · exact absurd ((hid i hi).2 '-' hci).1 (by decide)
    · exact absurd (List.mem_singleton.mp h4) (by decide)

theorem FDExprP_of_split (s d e : List Char)
    (hsplit : splitArrow (removeSpaces s) = [d, e])
    (hd : groupOk d = true) (he : groupOk e = true) : FDExprP s := by
  refine ⟨d, e, (groupOk_iff d).mp hd, (groupOk_iff e).mp he, ?_⟩
  have h1 := intercalate_splitArrow (removeSpaces s)
  rw [hsplit, intercalate_pair] at h1
  exact h1.symm

theorem split_of_FDExprP (s : List Char) (h : FDExprP s) :
    ∃ d e, splitArrow (removeSpaces s) = [d, e] ∧
      groupOk d = true ∧ groupOk e = true := by
  obtain ⟨g1, g2, hg1, hg2, heq⟩ := h
  refine ⟨g1, g2, ?_, (groupOk_iff g1).mpr hg1, (groupOk_iff g2).mpr hg2⟩
  rw [heq, show g1 ++ ['-', '>'] ++ g2 = g1 ++ '-' :: '>' :: g2 from by simp,
    splitArrow_append g1 g2 (GroupP_no_dash g1 hg1),
    splitArrow_no_dash g2 (GroupP_no_dash g2 hg2)]

theorem MVDExprP_of_split (s d e : List Char)
    (hsplit : splitDoubleArrow (removeSpaces s) = [d, e])
    (hd : groupOk d = true) (he : groupOk e = true) : MVDExprP s := by
  refine ⟨d, e, (groupOk_iff d).mp hd, (groupOk_iff e).mp he, ?_⟩
  have h1 := intercalate_splitDoubleArrow (removeSpaces s)
  rw [hsplit, intercalate_pair] at h1
  exact h1.symm

theorem split_of_MVDExprP (s : List Char) (h : MVDExprP s) :
    ∃ d e, splitDoubleArrow (removeSpaces s) = [d, e] ∧
      groupOk d = true ∧ groupOk e = true := by
  obtain ⟨g1, g2, hg1, hg2, heq⟩ := h
  refine ⟨g1, g2, ?_, (groupOk_iff g1).mpr hg1, (groupOk_iff g2).mpr hg2⟩
  rw [heq, show g1 ++ ['-', '>', '-', '>'] ++ g2 =
      g1 ++ '-' :: '>' :: '-' :: '>' :: g2 from by simp,
    splitDoubleArrow_append g1 g2 (GroupP_no_dash g1 hg1),
    splitDoubleArrow_no_dash g2 (GroupP_no_dash g2 hg2)]



/-- C3 (amended): dependency construction accepts exactly the strings
that, after removing space characters (only U+0020 is stripped), match
`{ids}OP{ids}` for the requested kind, where each identifier is a nonempty
run of characters in the regex class `[A-z]` (ASCII 65..122, the letters
plus `[ \\ ] ^ _` and backtick) and both sides are non-empty; every other
string raises `InvalidExpression`. -/
theorem claim_C3_parse_grammar :
    (∀ (oid : Nat) (s : List Char),
        ((FunctionalDependency.parse oid s).isOk = true ↔ FDExprP s) ∧
        (¬ FDExprP s →
          FunctionalDependency.parse oid s = .error .invalidExpression)) ∧
    (∀ (oid : Nat) (s : List Char),
        ((MultivaluedDependency.parse oid s).isOk = true ↔ MVDExprP s) ∧
        (¬ MVDExprP s →
          MultivaluedDependency.parse oid s = .error .invalidExpression)) := by
  constructor
  · intro oid s
    constructor
    · constructor
      · intro hok
        simp only [FunctionalDependency.parse] at hok
        rcases hs : splitArrow (removeSpaces s) with _ | ⟨d, _ | ⟨e, _ | ⟨x, xs⟩⟩⟩
        · rw [hs] at hok; simp [Except.isOk, Except.toBool] at hok
        · rw [hs] at hok; simp [Except.isOk, Except.toBool] at hok
        · rw [hs] at hok
          by_cases hg : (groupOk d && groupOk e) = true
          · have hg2 : groupOk d = true ∧ groupOk e = true := by simpa using hg
            exact FDExprP_of_split s d e hs hg2.1 hg2.2
          · simp [hg, Except.isOk, Except.toBool] at hok
        · rw [hs] at hok; simp [Except.isOk, Except.toBool] at hok
      · intro hP
        obtain ⟨d, e, hs, hd, he⟩ := split_of_FDExprP s hP
        simp [FunctionalDependency.parse, hs, hd, he, Except.isOk, Except.toBool]
    · intro hnP
      rcases hs : splitArrow (removeSpaces s) with _ | ⟨d, _ | ⟨e, _ | ⟨x, xs⟩⟩⟩
      · simp [FunctionalDependency.parse, hs]
      · simp [FunctionalDependency.parse, hs]
      · by_cases hd : groupOk d = true
        · by_cases he : groupOk e = true
          · exact absurd (FDExprP_of_split s d e hs hd he) hnP
          · have he2 : groupOk e = false := by
              cases hq : groupOk e
              · rfl
              · exact absurd hq he
            simp [FunctionalDependency.parse, hs, he2]
        · have hd2 : groupOk d = false := by
            cases hq : groupOk d
            · rfl
            · exact absurd hq hd
          simp [FunctionalDependency.parse, hs, hd2]
      · simp [FunctionalDependency.parse, hs]
  · intro oid s
    constructor
    · constructor
      · intro hok
        simp only [MultivaluedDependency.parse] at hok
        rcases hs : splitDoubleArrow (removeSpaces s) with _ | ⟨d, _ | ⟨e, _ | ⟨x, xs⟩⟩⟩
        · rw [hs] at hok; simp [Except.isOk, Except.toBool] at hok
        · rw [hs] at hok; simp [Except.isOk, Except.toBool] at hok
        · rw [hs] at hok
          by_cases hg : (groupOk d && groupOk e) = true
          · have hg2 : groupOk d = true ∧ groupOk e = true := by simpa using hg
            exact MVDExprP_of_split s d e hs hg2.1 hg2.2
          · simp [hg, Except.isOk, Except.toBool] at hok
        · rw [hs] at hok; simp [Except.isOk, Except.toBool] at hok
      · intro hP
        obtain ⟨d, e, hs, hd, he⟩ := split_of_MVDExprP s hP
        simp [MultivaluedDependency.parse, hs, hd, he, Except.isOk, Except.toBool]
    · intro hnP
      rcases hs : splitDoubleArrow (removeSpaces s) with _ | ⟨d, _ | ⟨e, _ | ⟨x, xs⟩⟩⟩
      · simp [MultivaluedDependency.parse, hs]
      · simp [MultivaluedDependency.parse, hs]
      · by_cases hd : groupOk d = true
        · by_cases he : groupOk e = true
          · exact absurd (MVDExprP_of_split s d e hs hd he) hnP
          · have he2 : groupOk e = false := by
              cases hq : groupOk e
              · rfl
              · exact absurd hq he
            simp [MultivaluedDependency.parse, hs, he2]
        · have hd2 : groupOk d = false := by
            cases hq : groupOk d
            · rfl
            · exact absurd hq hd
          simp [MultivaluedDependency.parse, hs, hd2]
      · simp [MultivaluedDependency.parse, hs]

/-- Witness for C3, discharging the characterization at concrete
accepted strings of both kinds. -/
theorem claim_C3_parse_grammar_witness :
    FDExprP ['{', 'A', '}', '-', '>', '{', 'B', '}'] ∧
    MVDExprP ['{', 'A', '}', '-', '>', '-', '>', '{', 'B', '}'] :=
  ⟨((claim_C3_parse_grammar.1 0 ['{', 'A', '}', '-', '>', '{', 'B', '}']).1).mp
      (by decide),
   ((claim_C3_parse_grammar.2 0
      ['{', 'A', '}', '-', '>', '-', '>', '{', 'B', '}']).1).mp (by decide)⟩

/-- C3 counterexample: the claim's grammar (identifiers `[A-Za-z]+`, all
whitespace ignored) differs from the code on both sides: `{_}->{A}` is
outside the claim's grammar yet accepted by the code (the regex class
`[A-z]` admits the underscore), and `{A}\t->{B}` is inside the claim's
grammar yet rejected by the code (only spaces are stripped, tabs are
not). -/
theorem claim_C3_parse_grammar_counterexample :
    specFDExprValid ['{', '_', '}', '-', '>', '{', 'A', '}'] = false ∧
    (FunctionalDependency.parse 0 ['{', '_', '}', '-', '>', '{', 'A', '}']).isOk
      = true ∧
    specFDExprValid ['{', 'A', '}', '\t', '-', '>', '{', 'B', '}'] = true ∧
    FunctionalDependency.parse 0 ['{', 'A', '}', '\t', '-', '>', '{', 'B', '}'] =
      .error .invalidExpression := by
  decide


end Normalization
